import Mathlib

/-!
Verification of the core algorithms of a sequence-to-sequence neural machine
translation repository: the BLEU scorer (`bleu_score.py`), the beam-search
update step (`EncoderDecoder.update_beam` in `encoder_decoder.py`) and the
attention mechanisms (`DecoderWithAttention` / `DecoderWithMultiHeadAttention`
in `encoder_decoder.py`).

Python floats are modelled by the real numbers, Python integers by `ℕ`,
token sequences by `List τ` for an arbitrary token type `τ` with decidable
equality.  Tensors are modelled by index functions (`ℕ → ℝ` and so on);
beam-search scores are kept generic in a linearly ordered type with addition
so that concrete witnesses can be evaluated over `ℚ`.
-/

namespace NMT

/-! Section: model of `bleu_score.py`. -/

/-- Model of `grouper(seq, n)` from `bleu_score.py`: all contiguous length-`n` windows
of `seq`, in order; empty when `len(seq) < n`.  The Python slice `seq[i:i+n]`
is `(seq.drop i).take n`. -/
def grouper {τ : Type} (seq : List τ) (n : ℕ) : List (List τ) :=
  if seq.length ≥ n then
    (List.range (seq.length - n + 1)).map (fun i => (seq.drop i).take n)
  else
    []

/-- The accumulation loop of `n_gram_precision`: `match_c` starts at `0` and
is incremented once for every candidate n-gram that occurs in the reference
n-gram list. -/
def matchCount {τ : Type} [DecidableEq τ] (refGrams candGrams : List (List τ)) : ℕ :=
  candGrams.foldl (fun acc c => if c ∈ refGrams then acc + 1 else acc) 0

/-- Model of `n_gram_precision(reference, candidate, n)` from `bleu_score.py`:
returns `0` when the candidate yields no n-grams, otherwise the matched
count divided by the total count of candidate n-grams.  The value is an
exact ratio of integers, so it is modelled in `ℚ` (the Python float
division is exact up to rounding). -/
def n_gram_precision {τ : Type} [DecidableEq τ]
    (reference candidate : List τ) (n : ℕ) : ℚ :=
  let reference_n_gram := grouper reference n
  let candidate_n_gram := grouper candidate n
  let len_c := candidate_n_gram.length
  if len_c = 0 then 0
  else (matchCount reference_n_gram candidate_n_gram : ℚ) / (len_c : ℚ)

/-- Model of `brevity_penalty(reference, candidate)` from `bleu_score.py`. -/
noncomputable def brevity_penalty {τ : Type} (reference candidate : List τ) : ℝ :=
  let len_r := reference.length
  let len_c := candidate.length
  if len_c = 0 then 0
  else
    let breavity : ℝ := (len_r : ℝ) / (len_c : ℝ)
    if breavity < 1 then 1 else Real.exp (1 - breavity)

/-- Model of `BLEU_score(reference, candidate, n)` from `bleu_score.py`: the loop
`for i in range(n+1): p_product *= n_gram_precision(...)` followed by
`bp * p_product ** (1/n)`.  The Python float power on the non-negative
base `p_product` is real exponentiation (`Real.rpow`). -/
noncomputable def BLEU_score {τ : Type} [DecidableEq τ]
    (reference candidate : List τ) (n : ℕ) : ℝ :=
  let bp := brevity_penalty reference candidate
  let p_product : ℚ :=
    (List.range (n + 1)).foldl
      (fun acc i => acc * n_gram_precision reference candidate i) 1
  bp * (p_product : ℝ) ^ ((1 : ℝ) / (n : ℝ))

/-! Section: exception model of `bleu_score.py`.  Python raises
`ZeroDivisionError` on division by zero; a computation that would raise is
modelled as `none`, a normal return as `some`.  Control flow follows the
source line by line. -/

/-- Rational division as Python performs it: `none` models the
`ZeroDivisionError` raised when the denominator is zero. -/
def div? (a b : ℚ) : Option ℚ :=
  if b = 0 then none else some (a / b)

/-- Real division as Python performs it: `none` models the
`ZeroDivisionError` raised when the denominator is zero. -/
noncomputable def divR? (a b : ℝ) : Option ℝ :=
  if b = 0 then none else some (a / b)

/-- Exception model of `n_gram_precision`: the division `match_c / len_c`
is only reached after the `len_c == 0` guard has returned `0`. -/
def n_gram_precisionE {τ : Type} [DecidableEq τ]
    (reference candidate : List τ) (n : ℕ) : Option ℚ :=
  let reference_n_gram := grouper reference n
  let candidate_n_gram := grouper candidate n
  let len_c := candidate_n_gram.length
  if len_c = 0 then some 0
  else div? (matchCount reference_n_gram candidate_n_gram : ℚ) (len_c : ℚ)

/-- Exception model of `brevity_penalty`: the division `len_r / len_c` is
only reached after the `len_c == 0` guard has returned `0`. -/
noncomputable def brevity_penaltyE {τ : Type} (reference candidate : List τ) :
    Option ℝ :=
  let len_r := reference.length
  let len_c := candidate.length
  if len_c = 0 then some 0
  else
    (divR? (len_r : ℝ) (len_c : ℝ)).map
      (fun breavity => if breavity < 1 then 1 else Real.exp (1 - breavity))

/-- Exception model of `BLEU_score`: any exception raised by
`brevity_penalty`, by one of the `n_gram_precision` calls of the loop, or by
the division `1/n` of the final power, propagates. -/
noncomputable def BLEU_scoreE {τ : Type} [DecidableEq τ]
    (reference candidate : List τ) (n : ℕ) : Option ℝ :=
  (brevity_penaltyE reference candidate).bind fun bp =>
    ((List.range (n + 1)).foldl
        (fun (acc : Option ℚ) i => acc.bind fun a =>
          (n_gram_precisionE reference candidate i).map fun p => a * p)
        (some 1)).bind fun p_product =>
      (divR? 1 (n : ℝ)).map fun e => bp * (p_product : ℝ) ^ e

/-! Section: model of `EncoderDecoder.update_beam` from `encoder_decoder.py`.
The batch dimension is dropped: every tensor operation of `update_beam` acts
independently on each batch element `m`, so the model fixes one batch
element.  Scores are kept generic in a linearly ordered type `α` with
addition (the source computes with floats).  A tensor row of `K` slots is a
function `ℕ → α`; the selected top-`K` outputs are length-`K` lists. -/

/-- Model of `torch.topk(l, k)` along a row: the `k` largest entries of `l`
together with their indices, in descending order of value (`torch.topk`
returns values sorted).  The list of `(index, value)` pairs is sorted by
value using a stable sort, so ties are resolved towards the smaller index,
and the first `k` pairs are kept. -/
def topk {α : Type} [LinearOrder α] (l : List α) (k : ℕ) : List (ℕ × α) :=
  ((l.enum).insertionSort (fun p q => q.2 ≤ p.2)).take k

/-- Model of `extensions_t = (logpb_tm1.unsqueeze(-1) + logpy_t).squeeze(1)`
for one batch element: the `K × V` matrix of candidate scores, each
hypothesis `k`'s cumulative log-probability added to its per-token
distribution.  (`squeeze(1)` only collapses the hypothesis axis when
`K = 1` and does not change the flattened contents.) -/
def extensions_t {α : Type} [Add α] (K V : ℕ)
    (logpb_tm1 : ℕ → α) (logpy_t : ℕ → ℕ → α) : List (List α) :=
  (List.range K).map fun k => (List.range V).map fun v => logpb_tm1 k + logpy_t k v

/-- Model of `extensions_flat = torch.flatten(extensions_t, start_dim=1)`
for one batch element: row-major flattening, `z[k, v]` at flat index
`k * V + v`. -/
def extensions_flat {α : Type} [Add α] (K V : ℕ)
    (logpb_tm1 : ℕ → α) (logpy_t : ℕ → ℕ → α) : List α :=
  (extensions_t K V logpb_tm1 logpy_t).flatten

/-- Model of `logpb_t, indices = torch.topk(extensions_flat, k=beam_width,
dim=1)` for one batch element: the selected `(flat index, score)` pairs. -/
def beamSelected {α : Type} [LinearOrder α] [Add α] (K V : ℕ)
    (logpb_tm1 : ℕ → α) (logpy_t : ℕ → ℕ → α) : List (ℕ × α) :=
  topk (extensions_flat K V logpb_tm1 logpy_t) K

/-- The `logpb_t` output of `update_beam` for one batch element. -/
def beamScores {α : Type} [LinearOrder α] [Add α] (K V : ℕ)
    (logpb_tm1 : ℕ → α) (logpy_t : ℕ → ℕ → α) : List α :=
  (beamSelected K V logpb_tm1 logpy_t).map Prod.snd

/-- The selected flat candidate indices (`indices` in the source). -/
def beamIndices {α : Type} [LinearOrder α] [Add α] (K V : ℕ)
    (logpb_tm1 : ℕ → α) (logpy_t : ℕ → ℕ → α) : List ℕ :=
  (beamSelected K V logpb_tm1 logpy_t).map Prod.fst

/-- Model of `paths = indices // self.target_vocab_size`. -/
def beamPaths {α : Type} [LinearOrder α] [Add α] (K V : ℕ)
    (logpb_tm1 : ℕ → α) (logpy_t : ℕ → ℕ → α) : List ℕ :=
  (beamIndices K V logpb_tm1 logpy_t).map (· / V)

/-- Model of `tokens = indices % self.target_vocab_size`. -/
def beamTokens {α : Type} [LinearOrder α] [Add α] (K V : ℕ)
    (logpb_tm1 : ℕ → α) (logpy_t : ℕ → ℕ → α) : List ℕ :=
  (beamIndices K V logpb_tm1 logpy_t).map (· % V)

/-- An incoming decoder hidden state for one batch element: a row of `K`
per-slot states, or a pair of such rows when the cell type is LSTM
(`htilde_t` is `(M, K, 2H)` or a tuple of two of those). -/
inductive HiddenIn (σ : Type) : Type where
  | basic : (ℕ → σ) → HiddenIn σ
  | lstm : (ℕ → σ) → (ℕ → σ) → HiddenIn σ

/-- An outgoing (gathered) decoder hidden state for one batch element: the
`K` surviving slots as a list, or a pair of lists for LSTM. -/
inductive HiddenOut (σ : Type) : Type where
  | basic : List σ → HiddenOut σ
  | lstm : List σ → List σ → HiddenOut σ

/-- Model of the `torch.gather(htilde_t, 1, paths...)` branch of
`update_beam`: re-index the hidden state by the selected path indices; for
an LSTM state the same gather is applied to both components. -/
def gatherHidden {σ : Type} (h : HiddenIn σ) (paths : List ℕ) : HiddenOut σ :=
  match h with
  | .basic f => .basic (paths.map f)
  | .lstm f g => .lstm (paths.map f) (paths.map g)

/-- The outputs of `update_beam` for one batch element. -/
structure BeamOut (α σ : Type) : Type where
  b_t_0 : HiddenOut σ
  b_t_1 : List (List ℕ)
  logpb_t : List α

/-- Model of `EncoderDecoder.update_beam` for one batch element.  The token
history `b_tm1_1` is a list over time of rows (`slot ↦ token id`); the
output history gathers each row by the selected path indices
(`torch.gather(b_tm1_1, 2, paths.expand_as(b_tm1_1))`) and appends the
selected tokens as the new final row (`torch.cat(..., dim=0)`). -/
def update_beam {α σ : Type} [LinearOrder α] [Add α] (K V : ℕ)
    (htilde_t : HiddenIn σ) (b_tm1_1 : List (ℕ → ℕ))
    (logpb_tm1 : ℕ → α) (logpy_t : ℕ → ℕ → α) : BeamOut α σ :=
  let paths := beamPaths K V logpb_tm1 logpy_t
  let tokens := beamTokens K V logpb_tm1 logpy_t
  let b_tm1_1_gathered := b_tm1_1.map fun row => paths.map row
  { b_t_0 := gatherHidden htilde_t paths
    b_t_1 := b_tm1_1_gathered ++ [tokens]
    logpb_t := beamScores K V logpb_tm1 logpy_t }

/-! Section: model of the attention mechanisms of `encoder_decoder.py`.
Feature vectors are index functions `ℕ → ℝ`; a decoder hidden state batch is
`ℕ → ℕ → ℝ` (batch element, feature) and the encoder hidden-state sequence is
`ℕ → ℕ → ℕ → ℝ` (source position, batch element, feature). -/

/-- The clamping constant `eps = 1e-8` of `torch.nn.functional.cosine_similarity`. -/
noncomputable def cosEps : ℝ := 1 / 100000000

/-- Dot product of two feature vectors over the first `n` features
(the feature dimension of the tensors involved). -/
noncomputable def dotR (n : ℕ) (x y : ℕ → ℝ) : ℝ :=
  ∑ i ∈ Finset.range n, x i * y i

/-- Model of `torch.nn.functional.cosine_similarity(x, y, dim=-1)`:
`x·y / (max(‖x‖₂, eps) * max(‖y‖₂, eps))` over the `n`-dimensional feature
axis. -/
noncomputable def cosineSim (n : ℕ) (x y : ℕ → ℝ) : ℝ :=
  dotR n x y /
    (max (Real.sqrt (dotR n x x)) cosEps * max (Real.sqrt (dotR n y y)) cosEps)

/-- Model of `DecoderWithAttention.get_energy_scores`: cosine similarity of
the decoder state `htilde_t[m]` (broadcast over source positions by
`unsqueeze(0)`) with each encoder state `h[s, m]`. -/
noncomputable def get_energy_scores (n : ℕ) (htilde_t : ℕ → ℕ → ℝ)
    (h : ℕ → ℕ → ℕ → ℝ) (s m : ℕ) : ℝ :=
  cosineSim n (htilde_t m) (fun i => h s m i)

/-- Model of `e_t.masked_fill(pad_mask, -inf)` followed by
`torch.nn.functional.softmax(e_t, 0)` along one batch column: a masked
entry holds `-inf`, whose exponential is `0`, so it contributes `0` to the
numerator and to the normalizing sum. -/
noncomputable def softmaxNegInf (S : ℕ) (mask : ℕ → Prop) [DecidablePred mask]
    (e : ℕ → ℝ) (s : ℕ) : ℝ :=
  (if mask s then 0 else Real.exp (e s)) /
    ∑ j ∈ Finset.range S, if mask j then 0 else Real.exp (e j)

/-- Model of `DecoderWithAttention.get_attention_weights`:
`pad_mask[s, m] = (s >= F_lens[m])`; masked energies are filled with `-inf`
and a softmax is taken over the source-position axis. -/
noncomputable def get_attention_weights (S n : ℕ) (htilde_t : ℕ → ℕ → ℝ)
    (h : ℕ → ℕ → ℕ → ℝ) (F_lens : ℕ → ℕ) (s m : ℕ) : ℝ :=
  softmaxNegInf S (fun j => F_lens m ≤ j)
    (fun j => get_energy_scores n htilde_t h j m) s

/-- A decoder hidden state as passed to `attend`: a plain batch of state
vectors, or an `(hidden, cell)` pair for an LSTM cell. -/
inductive DecHidden : Type where
  | basic : (ℕ → ℕ → ℝ) → DecHidden
  | lstm : (ℕ → ℕ → ℝ) → (ℕ → ℕ → ℝ) → DecHidden

/-- The component of the hidden state used by `attend`: the source runs
`if self.cell_type == 'lstm': htilde_t = htilde_t[0]`. -/
def DecHidden.main : DecHidden → ℕ → ℕ → ℝ
  | .basic x => x
  | .lstm x _ => x

/-- Model of `DecoderWithAttention.attend`: the context vector
`c_t = torch.sum(alpha_t.unsqueeze(2) * h, dim=0)`, at batch element `m`
and feature `i`, over `S` source positions and `n` features. -/
noncomputable def attend (S n : ℕ) (htilde_t : DecHidden)
    (h : ℕ → ℕ → ℕ → ℝ) (F_lens : ℕ → ℕ) (m i : ℕ) : ℝ :=
  ∑ s ∈ Finset.range S,
    get_attention_weights S n htilde_t.main h F_lens s m * h s m i

/-- Row-major `view` of a 2-D tensor of row width `w` as one of row width
`d`: entry `(r, c)` of the result is the entry of the original at flat
offset `r * d + c`. -/
def view2 (w d : ℕ) (x : ℕ → ℕ → ℝ) : ℕ → ℕ → ℝ :=
  fun r c => x ((r * d + c) / w) ((r * d + c) % w)

/-- A `torch.nn.Linear(bias=False)` projection applied to the feature axis
of a batch of vectors, modelled as an arbitrary map on feature vectors. -/
def applyLin (W : (ℕ → ℝ) → ℕ → ℝ) (x : ℕ → ℕ → ℝ) : ℕ → ℕ → ℝ :=
  fun m => W (x m)

/-- Model of `DecoderWithMultiHeadAttention.attend`: project the query with
`Wtilde` and the keys with `W`, reshape the head axis into the batch axis
(`view(M * heads, hidden // heads)`), replicate the source lengths per head
(`repeat_interleave(heads)`), run the single-head `attend`, reshape back
(`view(M, hidden)`) and apply the output projection `Q`.  For an LSTM
state only the hidden component is projected and reshaped; the cell
component is passed through unchanged. -/
noncomputable def attendMH (S n heads : ℕ) (W Wtilde Q : (ℕ → ℝ) → ℕ → ℝ)
    (htilde_t : DecHidden) (h : ℕ → ℕ → ℕ → ℝ) (F_lens : ℕ → ℕ) (m i : ℕ) : ℝ :=
  let d := n / heads
  let htilde_t_input : DecHidden :=
    match htilde_t with
    | .basic x => .basic (view2 n d (applyLin Wtilde x))
    | .lstm x c => .lstm (view2 n d (applyLin Wtilde x)) c
  let h_input : ℕ → ℕ → ℕ → ℝ := fun s => view2 n d (applyLin W (h s))
  let F_lens_input : ℕ → ℕ := fun r => F_lens (r / heads)
  let c_t : ℕ → ℕ → ℝ := fun mm ii =>
    attend S d htilde_t_input h_input F_lens_input
      ((mm * n + ii) / d) ((mm * n + ii) % d)
  applyLin Q c_t m i

/-! Section: helper lemmas. -/

theorem grouper_zero {τ : Type} (seq : List τ) :
    grouper seq 0 = List.replicate (seq.length + 1) ([] : List τ) := by
  unfold grouper
  rw [if_pos (Nat.zero_le _)]
  simp

theorem grouper_eq_nil_of_short {τ : Type} (seq : List τ) (n : ℕ)
    (h : seq.length < n) : grouper seq n = [] := by
  unfold grouper
  rw [if_neg (by omega)]

theorem matchCount_eq_countP {τ : Type} [DecidableEq τ]
    (refGrams candGrams : List (List τ)) :
    matchCount refGrams candGrams
      = candGrams.countP (fun c => decide (c ∈ refGrams)) := by
  suffices h : ∀ acc : ℕ,
      candGrams.foldl (fun acc c => if c ∈ refGrams then acc + 1 else acc) acc
        = acc + candGrams.countP (fun c => decide (c ∈ refGrams)) by
    simpa [matchCount] using h 0
  induction candGrams with
  | nil => intro acc; simp
  | cons c cs ih =>
    intro acc
    by_cases hc : c ∈ refGrams <;>
      simp [hc, ih, List.countP_cons] <;> omega

theorem foldl_range_mul {M : Type} [CommMonoid M] (f : ℕ → M) (n : ℕ) :
    (List.range n).foldl (fun acc i => acc * f i) 1
      = ∏ i ∈ Finset.range n, f i := by
  induction n with
  | zero => simp
  | succ n ih =>
    rw [List.range_succ, List.foldl_append, ih, Finset.prod_range_succ]
    rfl

/-! Section: theorems for the BLEU scorer claims. -/

/-- C4, counterexample: at `n = 0` with an empty candidate,
`n_gram_precision` returns `1`, not `0` — `grouper` produces one empty
`0`-gram from the empty candidate and it matches the reference's empty
`0`-gram, so the guarded division returns `1/1`. -/
theorem ngram_precision_empty_zero_gram_cex :
    n_gram_precision ([] : List ℕ) ([] : List ℕ) 0 ≠ 0 ∧
    n_gram_precision ([] : List ℕ) ([] : List ℕ) 0 = 1 := by
  constructor <;> norm_num [n_gram_precision, grouper, matchCount]

/-- C4 (amended): for every reference, candidate and `n ≥ 0` the n-gram
precision lies in `[0, 1]`; and for every `n ≥ 1` (rather than every
`n ≥ 0`, which fails at `n = 0`) the empty candidate yields precision `0`. -/
theorem ngram_precision_bounds_and_empty {τ : Type} [DecidableEq τ]
    (reference candidate : List τ) (n : ℕ) :
    (0 ≤ n_gram_precision reference candidate n ∧
      n_gram_precision reference candidate n ≤ 1) ∧
    (1 ≤ n → n_gram_precision reference ([] : List τ) n = 0) := by
  constructor
  · unfold n_gram_precision
    by_cases h : (grouper candidate n).length = 0
    · simp [h]
    · have hlen : (0 : ℚ) < ((grouper candidate n).length : ℚ) := by
        exact_mod_cast Nat.pos_of_ne_zero h
      simp only [h, if_false]
      constructor
      · positivity
      · rw [div_le_one hlen]
        exact_mod_cast matchCount_eq_countP (grouper reference n)
            (grouper candidate n) ▸ List.countP_le_length _
  · intro hn
    unfold n_gram_precision
    rw [grouper_eq_nil_of_short ([] : List τ) n (by simpa using hn)]
    simp

/-- C4 witness: a concrete instantiation of the amended claim. -/
theorem ngram_precision_bounds_and_empty_w :
    (0 ≤ n_gram_precision ([0] : List ℕ) ([0, 1] : List ℕ) 1 ∧
      n_gram_precision ([0] : List ℕ) ([0, 1] : List ℕ) 1 ≤ 1) ∧
    n_gram_precision ([0] : List ℕ) ([] : List ℕ) 1 = 0 :=
  ⟨(ngram_precision_bounds_and_empty [0] [0, 1] 1).1,
    (ngram_precision_bounds_and_empty [0] [0, 1] 1).2 (by decide)⟩

/-- C6: the brevity penalty is `0` for an empty candidate, exactly `1`
whenever the candidate is at least as long as the reference (the boundary
case of equal lengths goes through the `exp(1 - 1) = 1` branch), and
`exp(1 - len_r/len_c)` when the non-empty candidate is shorter than the
reference. -/
theorem brevity_penalty_cases {τ : Type} (reference candidate : List τ) :
    (candidate.length = 0 → brevity_penalty reference candidate = 0) ∧
    (0 < candidate.length → reference.length ≤ candidate.length →
      brevity_penalty reference candidate = 1) ∧
    (0 < candidate.length → candidate.length < reference.length →
      brevity_penalty reference candidate =
        Real.exp (1 - (reference.length : ℝ) / (candidate.length : ℝ))) := by
  refine ⟨fun h => by simp [brevity_penalty, h], fun hc hrc => ?_, fun hc hcr => ?_⟩
  · have hc0 : ((candidate.length : ℝ)) > 0 := by exact_mod_cast hc
    unfold brevity_penalty
    rw [if_neg (by omega)]
    by_cases hlt : (reference.length : ℝ) / (candidate.length : ℝ) < 1
    · rw [if_pos hlt]
    · rw [if_neg hlt]
      have hle : (reference.length : ℝ) / (candidate.length : ℝ) ≤ 1 :=
        (div_le_one hc0).2 (by exact_mod_cast hrc)
      have : (reference.length : ℝ) / (candidate.length : ℝ) = 1 :=
        le_antisymm hle (not_lt.1 hlt)
      rw [this]
      simpa using Real.exp_zero
  · have hc0 : ((candidate.length : ℝ)) > 0 := by exact_mod_cast hc
    unfold brevity_penalty
    rw [if_neg (by omega)]
    rw [if_neg (not_lt.2 (le_of_lt ((one_lt_div hc0).2 (by exact_mod_cast hcr))))]

/-- C6 witness: concrete instantiations of each branch. -/
theorem brevity_penalty_cases_w :
    brevity_penalty ([0] : List ℕ) ([] : List ℕ) = 0 ∧
    brevity_penalty ([0] : List ℕ) ([0, 1] : List ℕ) = 1 :=
  ⟨(brevity_penalty_cases ([0] : List ℕ) ([] : List ℕ)).1 (by decide),
    (brevity_penalty_cases ([0] : List ℕ) ([0, 1] : List ℕ)).2.1 (by decide) (by decide)⟩

/-- C7: whenever the candidate yields at least one n-gram, the n-gram
precision is the number of candidate n-grams (with multiplicity) that occur
anywhere among the reference's n-grams, divided by the number of candidate
n-grams; the match test is plain membership, not clipped by reference
counts. -/
theorem ngram_precision_membership_ratio {τ : Type} [DecidableEq τ]
    (reference candidate : List τ) (n : ℕ) (hn : 1 ≤ n)
    (hne : grouper candidate n ≠ []) :
    n_gram_precision reference candidate n =
      (((grouper candidate n).countP
          (fun c => decide (c ∈ grouper reference n)) : ℚ)) /
        ((grouper candidate n).length : ℚ) := by
  unfold n_gram_precision
  rw [if_neg (by simpa [List.length_eq_zero] using hne), matchCount_eq_countP]

/-- C7 witness: the candidate repeats the unigram `[0]` three times while
the reference contains it once; every repetition counts and the precision
is `1`. -/
theorem ngram_precision_membership_ratio_w :
    n_gram_precision ([0, 1] : List ℕ) ([0, 0, 0] : List ℕ) 1 =
      (((grouper ([0, 0, 0] : List ℕ) 1).countP
          (fun c => decide (c ∈ grouper ([0, 1] : List ℕ) 1)) : ℚ)) /
        ((grouper ([0, 0, 0] : List ℕ) 1).length : ℚ) :=
  ngram_precision_membership_ratio [0, 1] [0, 0, 0] 1 (by decide) (by decide)

/-- C10: `grouper(seq, 0)` is a list of `len(seq) + 1` empty windows, never
the empty list, and consequently `n_gram_precision(reference, candidate, 0)`
equals `1` for every reference and candidate, including the empty candidate,
so the `i = 0` factor of `BLEU_score`'s precision product is exactly `1`. -/
theorem grouper_zero_precision_one {τ : Type} [DecidableEq τ]
    (seq reference candidate : List τ) :
    grouper seq 0 = List.replicate (seq.length + 1) ([] : List τ) ∧
    grouper seq 0 ≠ [] ∧
    n_gram_precision reference candidate 0 = 1 := by
  refine ⟨grouper_zero seq, ?_, ?_⟩
  · rw [grouper_zero seq]
    simp
  · simp only [n_gram_precision, grouper_zero, matchCount_eq_countP,
      List.countP_replicate, List.length_replicate]
    have hmem : ([] : List τ) ∈ List.replicate (reference.length + 1) ([] : List τ) :=
      List.mem_replicate.2 ⟨Nat.succ_ne_zero _, rfl⟩
    simp only [hmem, decide_true_eq_true, if_true,
      if_neg (Nat.succ_ne_zero candidate.length)]
    exact div_self (by exact_mod_cast Nat.succ_ne_zero candidate.length)

/-- C5: `BLEU_score` equals the brevity penalty times the product of the
n-gram precisions for orders `0` through `max_n`, raised to the power
`1/max_n`; if any factor of the product is `0`, the score is `0`. -/
theorem BLEU_score_formula {τ : Type} [DecidableEq τ]
    (reference candidate : List τ) (n : ℕ) (hn : 1 ≤ n) :
    BLEU_score reference candidate n =
      brevity_penalty reference candidate *
        (((∏ i ∈ Finset.range (n + 1),
            n_gram_precision reference candidate i : ℚ) : ℝ) ^
          ((1 : ℝ) / (n : ℝ))) ∧
    ∀ j ≤ n, n_gram_precision reference candidate j = 0 →
      BLEU_score reference candidate n = 0 := by
  have hform : BLEU_score reference candidate n =
      brevity_penalty reference candidate *
        (((∏ i ∈ Finset.range (n + 1),
            n_gram_precision reference candidate i : ℚ) : ℝ) ^
          ((1 : ℝ) / (n : ℝ))) := by
    unfold BLEU_score
    rw [foldl_range_mul]
  refine ⟨hform, fun j hj hzero => ?_⟩
  have hprod : (∏ i ∈ Finset.range (n + 1),
      n_gram_precision reference candidate i) = 0 :=
    Finset.prod_eq_zero (Finset.mem_range.2 (by omega)) hzero
  rw [hform, hprod]
  rw [Rat.cast_zero, Real.zero_rpow
    (one_div_ne_zero (Nat.cast_ne_zero.2 (by omega)))]
  rw [mul_zero]

/-- C5 witness: a concrete instantiation. -/
theorem BLEU_score_formula_w :
    BLEU_score ([0] : List ℕ) ([0, 1] : List ℕ) 2 =
      brevity_penalty ([0] : List ℕ) ([0, 1] : List ℕ) *
        (((∏ i ∈ Finset.range (2 + 1),
            n_gram_precision ([0] : List ℕ) ([0, 1] : List ℕ) i : ℚ) : ℝ) ^
          ((1 : ℝ) / ((2 : ℕ) : ℝ))) ∧
    ∀ j ≤ 2, n_gram_precision ([0] : List ℕ) ([0, 1] : List ℕ) j = 0 →
      BLEU_score ([0] : List ℕ) ([0, 1] : List ℕ) 2 = 0 :=
  BLEU_score_formula [0] [0, 1] 2 (by decide)

theorem n_gram_precisionE_empty_isSome {τ : Type} [DecidableEq τ]
    (reference : List τ) (i : ℕ) :
    ∃ q, n_gram_precisionE reference ([] : List τ) i = some q := by
  cases i with
  | zero =>
    have h1 : (grouper ([] : List τ) 0).length = 1 := by
      rw [grouper_zero]; simp
    refine ⟨(matchCount (grouper reference 0) (grouper ([] : List τ) 0) : ℚ) / 1, ?_⟩
    simp [n_gram_precisionE, h1, div?]
  | succ i =>
    refine ⟨0, ?_⟩
    simp [n_gram_precisionE,
      grouper_eq_nil_of_short ([] : List τ) (i + 1) (Nat.succ_pos i)]

theorem foldl_bind_mul_isSome (g : ℕ → Option ℚ) :
    ∀ (l : List ℕ) (q : ℚ), (∀ i ∈ l, ∃ b, g i = some b) →
      ∃ p, l.foldl (fun acc i => acc.bind fun a => (g i).map fun b => a * b)
        (some q) = some p
  | [], q, _ => ⟨q, rfl⟩
  | x :: xs, q, hg => by
    obtain ⟨b, hb⟩ := hg x (List.mem_cons_self x xs)
    have hrest := foldl_bind_mul_isSome g xs (q * b)
      (fun i hi => hg i (List.mem_cons_of_mem x hi))
    simpa [hb] using hrest

/-- C9: on an empty candidate, `brevity_penalty` and `BLEU_score` both
return `0`, and none of the computations raises an exception: every guarded
division of the exception model returns a value (`some`), for every `n ≥ 1`
(`grouper` is a total function and cannot raise). -/
theorem bleu_empty_candidate_total {τ : Type} [DecidableEq τ]
    (reference : List τ) (n : ℕ) (hn : 1 ≤ n) :
    brevity_penaltyE reference ([] : List τ) = some 0 ∧
    BLEU_scoreE reference ([] : List τ) n = some 0 ∧
    (∀ i, ∃ q, n_gram_precisionE reference ([] : List τ) i = some q) ∧
    brevity_penalty reference ([] : List τ) = 0 ∧
    BLEU_score reference ([] : List τ) n = 0 := by
  have hbp : brevity_penaltyE reference ([] : List τ) = some 0 := by
    simp [brevity_penaltyE]
  refine ⟨hbp, ?_, fun i => n_gram_precisionE_empty_isSome reference i, ?_, ?_⟩
  · obtain ⟨p, hp⟩ := foldl_bind_mul_isSome
      (fun i => n_gram_precisionE reference ([] : List τ) i)
      (List.range (n + 1)) 1
      (fun i _ => n_gram_precisionE_empty_isSome reference i)
    have hne : ((n : ℝ)) ≠ 0 := Nat.cast_ne_zero.2 (by omega)
    simp only [BLEU_scoreE, hbp, Option.some_bind]
    rw [hp]
    simp [divR?, hne]
  · simp [brevity_penalty]
  · simp [BLEU_score, brevity_penalty]

/-- C9 witness: a concrete instantiation. -/
theorem bleu_empty_candidate_total_w :
    brevity_penaltyE ([0] : List ℕ) ([] : List ℕ) = some 0 ∧
    BLEU_scoreE ([0] : List ℕ) ([] : List ℕ) 1 = some 0 ∧
    (∀ i, ∃ q, n_gram_precisionE ([0] : List ℕ) ([] : List ℕ) i = some q) ∧
    brevity_penalty ([0] : List ℕ) ([] : List ℕ) = 0 ∧
    BLEU_score ([0] : List ℕ) ([] : List ℕ) 1 = 0 :=
  bleu_empty_candidate_total [0] 1 (by decide)

/-! Section: helper lemmas for the beam-search model. -/

theorem getD_append_left_of_lt {β : Type} (l1 l2 : List β) (s : ℕ)
    (h : s < l1.length) (d : β) : (l1 ++ l2).getD s d = l1.getD s d := by
  rw [List.getD_eq_getElem?_getD, List.getD_eq_getElem?_getD,
    List.getElem?_append_left h]

theorem getD_append_singleton {β : Type} (l1 : List β) (x d : β) :
    (l1 ++ [x]).getD l1.length d = x := by
  rw [List.getD_eq_getElem?_getD, List.getElem?_append_right (le_refl _)]
  simp

theorem getD_map_of_lt {β γ : Type} (l : List β) (f : β → γ) (k : ℕ)
    (h : k < l.length) (d : β) (d2 : γ) :
    (l.map f).getD k d2 = f (l.getD k d) := by
  rw [List.getD_eq_getElem?_getD, List.getD_eq_getElem?_getD, List.getElem?_map,
    List.getElem?_eq_getElem h]
  simp

theorem topk_map_snd {α : Type} [LinearOrder α] (l : List α) (k : ℕ) :
    (topk l k).map Prod.snd
      = (l.insertionSort (fun a b => b ≤ a)).take k := by
  unfold topk
  rw [List.map_take]
  congr 1
  haveI h1 : IsTotal (ℕ × α) (fun p q => q.2 ≤ p.2) := ⟨fun p q => le_total q.2 p.2⟩
  haveI h2 : IsTrans (ℕ × α) (fun p q => q.2 ≤ p.2) :=
    ⟨fun _ _ _ hab hbc => le_trans hbc hab⟩
  haveI h3 : IsTotal α (fun a b => b ≤ a) := ⟨fun a b => le_total b a⟩
  haveI h4 : IsTrans α (fun a b => b ≤ a) := ⟨fun _ _ _ hab hbc => le_trans hbc hab⟩
  haveI h5 : IsAntisymm α (fun a b => b ≤ a) := ⟨fun _ _ hab hba => le_antisymm hba hab⟩
  have hperm :
      ((l.enum.insertionSort (fun p q => q.2 ≤ p.2)).map Prod.snd).Perm
        (l.insertionSort (fun a b => b ≤ a)) := by
    refine ((List.perm_insertionSort _ l.enum).map Prod.snd).trans ?_
    rw [List.enum_map_snd]
    exact (List.perm_insertionSort _ l).symm
  have hs1 : List.Sorted (fun a b : α => b ≤ a)
      ((l.enum.insertionSort (fun p q => q.2 ≤ p.2)).map Prod.snd) :=
    List.Pairwise.map Prod.snd (fun _ _ h => h)
      (List.sorted_insertionSort _ l.enum)
  exact List.eq_of_perm_of_sorted hperm hs1 (List.sorted_insertionSort _ l)

theorem topk_mem {α : Type} [LinearOrder α] (l : List α) (k : ℕ) (p : ℕ × α)
    (hp : p ∈ topk l k) : l[p.1]? = some p.2 := by
  have h1 : p ∈ l.enum.insertionSort (fun p q => q.2 ≤ p.2) :=
    List.Sublist.mem hp (List.take_sublist _ _)
  have h2 : p ∈ l.enum := ((List.perm_insertionSort _ _).mem_iff).1 h1
  exact List.mem_enum_iff_getElem?.1 h2

theorem length_topk {α : Type} [LinearOrder α] (l : List α) (k : ℕ) :
    (topk l k).length = min k l.length := by
  unfold topk
  rw [List.length_take, List.length_insertionSort, List.enum_length]

theorem extensions_t_succ {α : Type} [Add α] (K V : ℕ)
    (f : ℕ → α) (g : ℕ → ℕ → α) :
    extensions_t (K + 1) V f g
      = extensions_t K V f g ++ [(List.range V).map (fun v => f K + g K v)] := by
  unfold extensions_t
  rw [List.range_succ, List.map_append]
  rfl

theorem length_extensions_flat {α : Type} [Add α] (K V : ℕ)
    (f : ℕ → α) (g : ℕ → ℕ → α) :
    (extensions_flat K V f g).length = K * V := by
  induction K with
  | zero => simp [extensions_flat, extensions_t]
  | succ K ih =>
    unfold extensions_flat at ih ⊢
    rw [extensions_t_succ, List.flatten_append, List.length_append, ih]
    simp [Nat.succ_mul]

theorem getElem?_extensions_flat {α : Type} [Add α] (K V : ℕ)
    (f : ℕ → α) (g : ℕ → ℕ → α) (i : ℕ) (hi : i < K * V) :
    (extensions_flat K V f g)[i]? = some (f (i / V) + g (i / V) (i % V)) := by
  induction K with
  | zero => omega
  | succ K ih =>
    have hflat : extensions_flat (K + 1) V f g
        = extensions_flat K V f g
            ++ ((List.range V).map (fun v => f K + g K v)) := by
      unfold extensions_flat
      rw [extensions_t_succ, List.flatten_append]
      simp
    rw [hflat]
    by_cases h : i < K * V
    · rw [List.getElem?_append_left (by rw [length_extensions_flat]; exact h)]
      exact ih h
    · have hKV : K * V ≤ i := le_of_not_lt h
      rw [Nat.succ_mul] at hi
      have hV : 0 < V := by omega
      obtain ⟨v, rfl⟩ : ∃ v, i = v + K * V := ⟨i - K * V, by omega⟩
      have hvV : v < V := by omega
      rw [List.getElem?_append_right (by rw [length_extensions_flat]; exact hKV)]
      rw [length_extensions_flat, Nat.add_sub_cancel, List.getElem?_map,
        List.getElem?_range hvV]
      rw [Nat.add_mul_div_right _ _ hV, Nat.div_eq_of_lt hvV, Nat.zero_add,
        Nat.add_mul_mod_self_right, Nat.mod_eq_of_lt hvV]
      rfl

theorem length_beamSelected {α : Type} [LinearOrder α] [Add α] (K V : ℕ)
    (hV : 0 < V) (f : ℕ → α) (g : ℕ → ℕ → α) :
    (beamSelected K V f g).length = K := by
  unfold beamSelected
  rw [length_topk, length_extensions_flat]
  exact min_eq_left (Nat.le_mul_of_pos_right K hV)

/-! Section: theorems for the beam-search claims. -/

/-- C1: `update_beam` forms all `K * V` candidate scores by adding each
hypothesis's cumulative log-probability to its per-token log-probability
distribution (no re-normalization of `logpy_t`), returns as `logpb_t` the
`K` largest candidate scores, and every selected flat index `i` satisfies
`score = logpb_tm1[i // V] + logpy_t[i // V, i % V]`, recovering the source
hypothesis by integer division and the appended token by remainder. -/
theorem update_beam_candidate_scores {α : Type} [LinearOrder α] [Add α]
    (K V : ℕ) (logpb_tm1 : ℕ → α) (logpy_t : ℕ → ℕ → α) :
    (extensions_flat K V logpb_tm1 logpy_t).length = K * V ∧
    beamScores K V logpb_tm1 logpy_t
      = ((extensions_flat K V logpb_tm1 logpy_t).insertionSort
          (fun a b => b ≤ a)).take K ∧
    ∀ p ∈ beamSelected K V logpb_tm1 logpy_t,
      p.1 < K * V ∧
      p.2 = logpb_tm1 (p.1 / V) + logpy_t (p.1 / V) (p.1 % V) := by
  refine ⟨length_extensions_flat K V _ _, topk_map_snd _ K, fun p hp => ?_⟩
  have h := topk_mem _ K p hp
  have hlen : p.1 < (extensions_flat K V logpb_tm1 logpy_t).length := by
    by_contra hge
    rw [List.getElem?_eq_none (le_of_not_lt hge)] at h
    exact Option.noConfusion h
  rw [length_extensions_flat] at hlen
  refine ⟨hlen, ?_⟩
  rw [getElem?_extensions_flat K V _ _ p.1 hlen] at h
  exact (Option.some_injective _ h).symm

/-- C2: after `update_beam`, exactly `K` hypotheses remain: the score list
and every history row have length `K`; the returned history has time-length
`t + 1`; for every time step `s < t` and slot `k < K`, the token at slot `k`
is the token of the recovered source hypothesis `paths[k]` (gathered by path
index, not the token at slot `k`); the final row holds the appended tokens
`indices[k] % V`; and the hidden state is gathered by the same path indices,
applied to both components of an LSTM `(hidden, cell)` pair. -/
theorem update_beam_invariants {α σ : Type} [LinearOrder α] [Add α]
    (K V : ℕ) (hV : 0 < V) (htilde_t : HiddenIn σ) (b_tm1_1 : List (ℕ → ℕ))
    (logpb_tm1 : ℕ → α) (logpy_t : ℕ → ℕ → α) :
    (update_beam K V htilde_t b_tm1_1 logpb_tm1 logpy_t).logpb_t.length = K ∧
    (update_beam K V htilde_t b_tm1_1 logpb_tm1 logpy_t).b_t_1.length
      = b_tm1_1.length + 1 ∧
    (∀ row ∈ (update_beam K V htilde_t b_tm1_1 logpb_tm1 logpy_t).b_t_1,
      row.length = K) ∧
    (∀ s, s < b_tm1_1.length → ∀ k, k < K →
      (((update_beam K V htilde_t b_tm1_1 logpb_tm1 logpy_t).b_t_1.getD s
          []).getD k 0)
        = (b_tm1_1.getD s (fun _ => 0))
            ((beamPaths K V logpb_tm1 logpy_t).getD k 0)) ∧
    (∀ k, k < K →
      (((update_beam K V htilde_t b_tm1_1 logpb_tm1 logpy_t).b_t_1.getD
          b_tm1_1.length []).getD k 0)
        = (beamIndices K V logpb_tm1 logpy_t).getD k 0 % V) ∧
    (∀ f, htilde_t = HiddenIn.basic f →
      (update_beam K V htilde_t b_tm1_1 logpb_tm1 logpy_t).b_t_0
        = HiddenOut.basic ((beamPaths K V logpb_tm1 logpy_t).map f)) ∧
    (∀ f g, htilde_t = HiddenIn.lstm f g →
      (update_beam K V htilde_t b_tm1_1 logpb_tm1 logpy_t).b_t_0
        = HiddenOut.lstm ((beamPaths K V logpb_tm1 logpy_t).map f)
            ((beamPaths K V logpb_tm1 logpy_t).map g)) := by
  have hsel := length_beamSelected K V hV logpb_tm1 logpy_t
  have hidx : (beamIndices K V logpb_tm1 logpy_t).length = K := by
    unfold beamIndices; rw [List.length_map, hsel]
  have hpaths : (beamPaths K V logpb_tm1 logpy_t).length = K := by
    unfold beamPaths; rw [List.length_map, hidx]
  have htok : (beamTokens K V logpb_tm1 logpy_t).length = K := by
    unfold beamTokens; rw [List.length_map, hidx]
  refine ⟨?_, ?_, ?_, ?_, ?_, ?_, ?_⟩
  · show (beamScores K V logpb_tm1 logpy_t).length = K
    unfold beamScores; rw [List.length_map, hsel]
  · show ((b_tm1_1.map fun row => (beamPaths K V logpb_tm1 logpy_t).map row)
      ++ [beamTokens K V logpb_tm1 logpy_t]).length = b_tm1_1.length + 1
    rw [List.length_append, List.length_map]
    rfl
  · intro row hrow
    have hrow2 : row ∈ (b_tm1_1.map fun r => (beamPaths K V logpb_tm1 logpy_t).map r)
        ++ [beamTokens K V logpb_tm1 logpy_t] := hrow
    rcases List.mem_append.1 hrow2 with hleft | hright
    · obtain ⟨r, _, rfl⟩ := List.mem_map.1 hleft
      rw [List.length_map, hpaths]
    · rw [List.mem_singleton.1 hright]
      exact htok
  · intro s hs k hk
    have hgath : (update_beam K V htilde_t b_tm1_1 logpb_tm1 logpy_t).b_t_1.getD s []
        = (beamPaths K V logpb_tm1 logpy_t).map (b_tm1_1.getD s (fun _ => 0)) := by
      show ((b_tm1_1.map fun row => (beamPaths K V logpb_tm1 logpy_t).map row)
          ++ [beamTokens K V logpb_tm1 logpy_t]).getD s [] = _
      rw [getD_append_left_of_lt _ _ s (by rw [List.length_map]; exact hs)]
      exact getD_map_of_lt b_tm1_1 _ s hs (fun _ => 0) []
    rw [hgath]
    exact getD_map_of_lt _ _ k (by rw [hpaths]; exact hk) 0 0
  · intro k hk
    have hlast : (update_beam K V htilde_t b_tm1_1 logpb_tm1 logpy_t).b_t_1.getD
        b_tm1_1.length [] = beamTokens K V logpb_tm1 logpy_t := by
      show ((b_tm1_1.map fun row => (beamPaths K V logpb_tm1 logpy_t).map row)
          ++ [beamTokens K V logpb_tm1 logpy_t]).getD b_tm1_1.length [] = _
      have hlm : (b_tm1_1.map fun row =>
          (beamPaths K V logpb_tm1 logpy_t).map row).length = b_tm1_1.length :=
        List.length_map _ _
      rw [← hlm, getD_append_singleton]
    rw [hlast]
    show ((beamIndices K V logpb_tm1 logpy_t).map (· % V)).getD k 0
      = (beamIndices K V logpb_tm1 logpy_t).getD k 0 % V
    exact getD_map_of_lt _ _ k (by rw [hidx]; exact hk) 0 0
  · intro f hf; subst hf; rfl
  · intro f g hfg; subst hfg; rfl

/-- C2 witness: a concrete instantiation over `ℚ` scores and states. -/
theorem update_beam_invariants_w :
    (update_beam 2 3 (HiddenIn.basic fun k => (k : ℚ)) [fun k => k + 10]
      (fun _ => (0 : ℚ)) (fun _ v => -(v : ℚ))).logpb_t.length = 2 ∧
    (update_beam 2 3 (HiddenIn.basic fun k => (k : ℚ)) [fun k => k + 10]
      (fun _ => (0 : ℚ)) (fun _ v => -(v : ℚ))).b_t_1.length
      = [fun k => k + 10].length + 1 ∧
    (∀ row ∈ (update_beam 2 3 (HiddenIn.basic fun k => (k : ℚ)) [fun k => k + 10]
      (fun _ => (0 : ℚ)) (fun _ v => -(v : ℚ))).b_t_1, row.length = 2) ∧
    (∀ s, s < [fun k => k + 10].length → ∀ k, k < 2 →
      (((update_beam 2 3 (HiddenIn.basic fun k => (k : ℚ)) [fun k => k + 10]
          (fun _ => (0 : ℚ)) (fun _ v => -(v : ℚ))).b_t_1.getD s []).getD k 0)
        = ([fun k => k + 10].getD s (fun _ => 0))
            ((beamPaths 2 3 (fun _ => (0 : ℚ)) (fun _ v => -(v : ℚ))).getD k 0)) ∧
    (∀ k, k < 2 →
      (((update_beam 2 3 (HiddenIn.basic fun k => (k : ℚ)) [fun k => k + 10]
          (fun _ => (0 : ℚ)) (fun _ v => -(v : ℚ))).b_t_1.getD
          [fun k => k + 10].length []).getD k 0)
        = (beamIndices 2 3 (fun _ => (0 : ℚ)) (fun _ v => -(v : ℚ))).getD k 0 % 3) ∧
    (∀ f, HiddenIn.basic (fun k => (k : ℚ)) = HiddenIn.basic f →
      (update_beam 2 3 (HiddenIn.basic fun k => (k : ℚ)) [fun k => k + 10]
        (fun _ => (0 : ℚ)) (fun _ v => -(v : ℚ))).b_t_0
        = HiddenOut.basic
            ((beamPaths 2 3 (fun _ => (0 : ℚ)) (fun _ v => -(v : ℚ))).map f)) ∧
    (∀ f g, HiddenIn.basic (fun k => (k : ℚ)) = HiddenIn.lstm f g →
      (update_beam 2 3 (HiddenIn.basic fun k => (k : ℚ)) [fun k => k + 10]
        (fun _ => (0 : ℚ)) (fun _ v => -(v : ℚ))).b_t_0
        = HiddenOut.lstm
            ((beamPaths 2 3 (fun _ => (0 : ℚ)) (fun _ v => -(v : ℚ))).map f)
            ((beamPaths 2 3 (fun _ => (0 : ℚ)) (fun _ v => -(v : ℚ))).map g)) :=
  update_beam_invariants 2 3 (by decide) (HiddenIn.basic fun k => (k : ℚ))
    [fun k => k + 10] (fun _ => (0 : ℚ)) (fun _ v => -(v : ℚ))

/-! Section: helper lemmas for the attention model. -/

theorem dotR_congr (n : ℕ) (x x' y y' : ℕ → ℝ)
    (hx : ∀ j, j < n → x j = x' j) (hy : ∀ j, j < n → y j = y' j) :
    dotR n x y = dotR n x' y' := by
  unfold dotR
  exact Finset.sum_congr rfl fun j hj => by
    rw [hx j (Finset.mem_range.1 hj), hy j (Finset.mem_range.1 hj)]

theorem cosineSim_congr (n : ℕ) (x x' y y' : ℕ → ℝ)
    (hx : ∀ j, j < n → x j = x' j) (hy : ∀ j, j < n → y j = y' j) :
    cosineSim n x y = cosineSim n x' y' := by
  unfold cosineSim
  rw [dotR_congr n x x' y y' hx hy, dotR_congr n x x' x x' hx hx,
    dotR_congr n y y' y y' hy hy]

theorem view2_self (w : ℕ) (x : ℕ → ℕ → ℝ) (r c : ℕ) (hc : c < w) :
    view2 w w x r c = x r c := by
  unfold view2
  rw [Nat.add_comm (r * w) c, Nat.add_mul_div_right _ _ (by omega : 0 < w),
    Nat.div_eq_of_lt hc, Nat.zero_add, Nat.add_mul_mod_self_right,
    Nat.mod_eq_of_lt hc]

theorem attend_main_congr (S n : ℕ) (a b : DecHidden)
    (h h' : ℕ → ℕ → ℕ → ℝ) (F F' : ℕ → ℕ) (m i : ℕ)
    (hmain : ∀ j, j < n → a.main m j = b.main m j)
    (hh : ∀ s j, j < n → h s m j = h' s m j)
    (hhi : ∀ s, h s m i = h' s m i)
    (hF : F m = F' m) :
    attend S n a h F m i = attend S n b h' F' m i := by
  have hE : ∀ j, get_energy_scores n a.main h j m
      = get_energy_scores n b.main h' j m := fun j => by
    unfold get_energy_scores
    exact cosineSim_congr n _ _ _ _ (fun t ht => hmain t ht)
      (fun t ht => hh j t ht)
  unfold attend
  refine Finset.sum_congr rfl fun s _ => ?_
  rw [hhi s]
  congr 1
  simp only [get_attention_weights, softmaxNegInf]
  rw [hF]
  congr 1
  · by_cases hc : F' m ≤ s
    · rw [if_pos hc, if_pos hc]
    · rw [if_neg hc, if_neg hc, hE s]
  · refine Finset.sum_congr rfl fun j _ => ?_
    by_cases hc : F' m ≤ j
    · rw [if_pos hc, if_pos hc]
    · rw [if_neg hc, if_neg hc, hE j]

/-! Section: theorems for the attention claims. -/

/-- C3: the attention weights are a softmax over the source-position axis in
which every position at or beyond the true source length has weight exactly
`0` (its energy is `-inf` before the softmax), and the weights at the valid
positions sum to `1`, provided `1 ≤ F_lens[m] ≤ S`. -/
theorem attention_weights_mask_softmax (S n : ℕ) (htilde_t : ℕ → ℕ → ℝ)
    (h : ℕ → ℕ → ℕ → ℝ) (F_lens : ℕ → ℕ) (m : ℕ)
    (h1 : 1 ≤ F_lens m) (h2 : F_lens m ≤ S) :
    (∀ s, F_lens m ≤ s → get_attention_weights S n htilde_t h F_lens s m = 0) ∧
    (∑ s ∈ Finset.range (F_lens m),
        get_attention_weights S n htilde_t h F_lens s m) = 1 := by
  have hD : (0 : ℝ) < ∑ j ∈ Finset.range S,
      if F_lens m ≤ j then 0
      else Real.exp (get_energy_scores n htilde_t h j m) := by
    apply Finset.sum_pos'
    · intro j _
      by_cases hc : F_lens m ≤ j
      · rw [if_pos hc]
      · rw [if_neg hc]
        exact (Real.exp_pos _).le
    · refine ⟨0, Finset.mem_range.2 (by omega), ?_⟩
      rw [if_neg (by omega)]
      exact Real.exp_pos _
  have hzero : ∀ s, F_lens m ≤ s →
      get_attention_weights S n htilde_t h F_lens s m = 0 := by
    intro s hs
    simp only [get_attention_weights, softmaxNegInf]
    rw [if_pos hs, zero_div]
  refine ⟨hzero, ?_⟩
  have hsub : Finset.range (F_lens m) ⊆ Finset.range S :=
    Finset.range_subset.2 h2
  rw [Finset.sum_subset hsub (fun s _ hs =>
    hzero s (le_of_not_lt (fun hlt => hs (Finset.mem_range.2 hlt))))]
  simp only [get_attention_weights, softmaxNegInf]
  rw [← Finset.sum_div, div_self (ne_of_gt hD)]

/-- C3 witness: a concrete instantiation. -/
theorem attention_weights_mask_softmax_w :
    (∀ s, (1 : ℕ) ≤ s →
      get_attention_weights 1 1 (fun _ _ => 0) (fun _ _ _ => 0)
        (fun _ => 1) s 0 = 0) ∧
    (∑ s ∈ Finset.range 1,
        get_attention_weights 1 1 (fun _ _ => 0) (fun _ _ _ => 0)
          (fun _ => 1) s 0) = 1 :=
  attention_weights_mask_softmax 1 1 (fun _ _ => 0) (fun _ _ _ => 0)
    (fun _ => 1) 0 (by decide) (by decide)

/-- C8: with `heads = 1` and identity projections `W`, `Wtilde`, `Q`, the
multi-head `attend` returns the same context vector as the single-head
`attend`, for every hidden state (including the LSTM pair form), encoder
sequence and source lengths with all entries at least `1`; `i < n` ranges
over the feature coordinates of the context vector. -/
theorem attendMH_single_head (S n : ℕ) (htilde_t : DecHidden)
    (h : ℕ → ℕ → ℕ → ℝ) (F_lens : ℕ → ℕ) (hF : ∀ r, 1 ≤ F_lens r)
    (m i : ℕ) (hi : i < n) :
    attendMH S n 1 id id id htilde_t h F_lens m i
      = attend S n htilde_t h F_lens m i := by
  have hn0 : 0 < n := by omega
  show attend S (n / 1)
      (match htilde_t with
        | DecHidden.basic x => DecHidden.basic (view2 n (n / 1) (applyLin id x))
        | DecHidden.lstm x c => DecHidden.lstm (view2 n (n / 1) (applyLin id x)) c)
      (fun s => view2 n (n / 1) (applyLin id (h s)))
      (fun r => F_lens (r / 1))
      ((m * n + i) / (n / 1)) ((m * n + i) % (n / 1))
    = attend S n htilde_t h F_lens m i
  simp only [Nat.div_one]
  have hdiv : (m * n + i) / n = m := by
    rw [Nat.add_comm, Nat.add_mul_div_right _ _ hn0, Nat.div_eq_of_lt hi,
      Nat.zero_add]
  have hmod : (m * n + i) % n = i := by
    rw [Nat.add_comm, Nat.add_mul_mod_self_right, Nat.mod_eq_of_lt hi]
  rw [hdiv, hmod]
  apply attend_main_congr
  · intro j hj
    cases htilde_t with
    | basic x => exact view2_self n (applyLin id x) m j hj
    | lstm x c => exact view2_self n (applyLin id x) m j hj
  · intro s j hj
    exact view2_self n (applyLin id (h s)) m j hj
  · intro s
    exact view2_self n (applyLin id (h s)) m i hi
  · rfl

/-- C8 witness: a concrete instantiation. -/
theorem attendMH_single_head_w :
    attendMH 1 1 1 id id id (DecHidden.basic fun _ _ => 0)
      (fun _ _ _ => 0) (fun _ => 1) 0 0
      = attend 1 1 (DecHidden.basic fun _ _ => 0)
          (fun _ _ _ => 0) (fun _ => 1) 0 0 :=
  attendMH_single_head 1 1 (DecHidden.basic fun _ _ => 0) (fun _ _ _ => 0)
    (fun _ => 1) (fun _ => le_refl 1) 0 0 (by decide)

end NMT
